import Mathlib

/-!
Shallow embedding of the WAV audio pipeline in `_exercice_version_prof.py`:
waveform synthesis (`sine_gen`), channel interleaving (`merge_channels`,
`separate_channels`), the 16-bit PCM sample codec (`convert_to_bytes`,
`convert_to_samples`) and the WAV header builder (`create_headers`).

Real-valued samples are modelled as rationals (`ℚ`) except for the sine
generator, whose samples involve `Real.sin` and are modelled as reals.
Bytes are modelled as natural numbers below 256.  Python's `struct.error`
exceptions are modelled with `Except String`.
-/

namespace Wav

/-- `SAMPLING_FREQ = 44100` from the source. -/
def SAMPLING_FREQ : ℕ := 44100

/-- `SAMPLE_BITS = 16` from the source. -/
def SAMPLE_BITS : ℕ := 16

/-- `SAMPLE_WIDTH = SAMPLE_BITS // 8` from the source. -/
def SAMPLE_WIDTH : ℕ := SAMPLE_BITS / 8

/-- `MAX_SAMPLE_VALUE = 2**(SAMPLE_BITS-1) - 1 = 32767` from the source. -/
def MAX_SAMPLE_VALUE : ℤ := 2 ^ (SAMPLE_BITS - 1) - 1

/-- Python's `int()` applied to a real number: truncation toward zero.
For a reduced fraction with positive denominator this is exactly
truncating integer division of the numerator by the denominator. -/
def pyInt (q : ℚ) : ℤ := q.num.tdiv q.den

/-- `pyInt` is the floor for non-negative arguments and the ceiling for
negative ones: truncation toward zero. -/
theorem pyInt_eq (q : ℚ) : pyInt q = if 0 ≤ q then ⌊q⌋ else ⌈q⌉ := by
  unfold pyInt
  split
  · next h =>
    rw [Rat.floor_def]
    exact Int.tdiv_eq_ediv (Rat.num_nonneg.mpr h) (Int.natCast_nonneg q.den)
  · next h =>
    have hnum : 0 ≤ -q.num := by
      have hn : ¬ (0 ≤ q.num) := fun hc => h (Rat.num_nonneg.mp hc)
      omega
    have hceil : (⌈q⌉ : ℤ) = -⌊-q⌋ := by
      rw [Int.floor_neg, neg_neg]
    rw [hceil, Rat.floor_def, Rat.num_neg_eq_neg_num, Rat.den_neg_eq_den,
      ← Int.tdiv_eq_ediv hnum (Int.natCast_nonneg q.den), Int.neg_tdiv, neg_neg]

/-- The two little-endian bytes of the 16-bit two's-complement encoding of
`v`, as produced by `struct.pack` with format `h` for an in-range `v`. -/
def encInt16 (v : ℤ) : List ℕ :=
  [(v % 65536).toNat % 256, (v % 65536).toNat / 256]

/-- The signed 16-bit integer read from the little-endian pair
`(b0, b1)`, as `struct.unpack` with format `h` does. -/
def decInt16 (b0 b1 : ℕ) : ℤ :=
  if b0 + 256 * b1 < 32768 then ((b0 + 256 * b1 : ℕ) : ℤ)
  else ((b0 + 256 * b1 : ℕ) : ℤ) - 65536

/-- The error message `struct.pack` raises for an out-of-range `h` value. -/
def structRangeError : String :=
  "struct.error: short format requires -32768 <= number <= 32767"

/-- The error message `struct.unpack` raises on a size mismatch. -/
def structSizeError : String :=
  "struct.error: unpack requires a buffer of the right length"

/-- `convert_to_bytes(samples)` from the source: each sample is scaled by
`MAX_SAMPLE_VALUE`, truncated toward zero by `int()`, and packed by
`struct.pack` with format `f"{len(samples)}h"`, which raises `struct.error`
when a value is outside the signed 16-bit range `[-32768, 32767]` and
otherwise writes each value as two little-endian bytes. -/
def convert_to_bytes (samples : List ℚ) : Except String (List ℕ) :=
  let ints := samples.map (fun s => pyInt (s * (MAX_SAMPLE_VALUE : ℚ)))
  if ∀ v ∈ ints, -32768 ≤ v ∧ v ≤ 32767 then
    .ok (ints.flatMap encInt16)
  else
    .error structRangeError

/-- Decoding of consecutive little-endian byte pairs into signed 16-bit
integers, as `struct.unpack` with format `f"{n}h"` reads its buffer. -/
def decInts : List ℕ → List ℤ
  | b0 :: b1 :: rest => decInt16 b0 b1 :: decInts rest
  | _ => []

/-- `convert_to_samples(sample_bytes)` from the source: `struct.unpack`
with format `f"{len(sample_bytes) // SAMPLE_WIDTH}h"` requires the buffer
length to equal `SAMPLE_WIDTH * (len // SAMPLE_WIDTH)` — i.e. to be even —
and each decoded integer is divided by `MAX_SAMPLE_VALUE`. -/
def convert_to_samples (sample_bytes : List ℕ) : Except String (List ℚ) :=
  if sample_bytes.length % SAMPLE_WIDTH = 0 then
    .ok ((decInts sample_bytes).map (fun v : ℤ => (v : ℚ) / (MAX_SAMPLE_VALUE : ℚ)))
  else
    .error structSizeError

instance {ε α : Type} [DecidableEq ε] [DecidableEq α] : DecidableEq (Except ε α)
  | .ok a, .ok b =>
    if h : a = b then isTrue (congrArg Except.ok h)
    else isFalse (fun hc => h (Except.ok.inj hc))
  | .ok _, .error _ => isFalse (fun hc => Except.noConfusion hc)
  | .error _, .ok _ => isFalse (fun hc => Except.noConfusion hc)
  | .error e, .error f =>
    if h : e = f then isTrue (congrArg Except.error h)
    else isFalse (fun hc => h (Except.error.inj hc))

example : MAX_SAMPLE_VALUE = 32767 := by decide
example : SAMPLE_WIDTH = 2 := by decide
example : pyInt (3 / 2) = 1 := by norm_num [pyInt]; decide
example : pyInt (-3 / 2) = -1 := by norm_num [pyInt]; decide
example : convert_to_bytes [1] = .ok [255, 127] := by
  norm_num [convert_to_bytes, pyInt, encInt16, MAX_SAMPLE_VALUE, SAMPLE_BITS]
  decide
example : convert_to_bytes [-1] = .ok [1, 128] := by
  norm_num [convert_to_bytes, pyInt, encInt16, MAX_SAMPLE_VALUE, SAMPLE_BITS]
  decide
example : convert_to_bytes [2] = .error structRangeError := by
  norm_num [convert_to_bytes, pyInt, encInt16, MAX_SAMPLE_VALUE, SAMPLE_BITS]
example : convert_to_samples [255, 127] = .ok [1] := by
  norm_num [convert_to_samples, decInts, decInt16, MAX_SAMPLE_VALUE, SAMPLE_WIDTH, SAMPLE_BITS]
example : convert_to_samples [255] = .error structSizeError := by
  norm_num [convert_to_samples, SAMPLE_WIDTH, SAMPLE_BITS]

/-- Truncation toward zero moves a rational by less than one. -/
theorem abs_pyInt_sub_le (q : ℚ) : |(pyInt q : ℚ) - q| ≤ 1 := by
  rw [pyInt_eq]
  split
  · next h =>
    rw [abs_le]
    constructor
    · have := Int.sub_one_lt_floor q
      linarith
    · have := Int.floor_le q
      linarith
  · next h =>
    rw [abs_le]
    constructor
    · have := Int.le_ceil q
      linarith
    · have := Int.ceil_lt_add_one q
      linarith

/-- The scaled truncation of a sample in `[-1, 1]` lies in
`[-32767, 32767]`, hence inside the signed 16-bit range. -/
theorem pyInt_scale_range (x : ℚ) (h1 : -1 ≤ x) (h2 : x ≤ 1) :
    -32767 ≤ pyInt (x * (MAX_SAMPLE_VALUE : ℚ)) ∧
      pyInt (x * (MAX_SAMPLE_VALUE : ℚ)) ≤ 32767 := by
  have hMV : (MAX_SAMPLE_VALUE : ℚ) = 32767 := by
    norm_num [MAX_SAMPLE_VALUE, SAMPLE_BITS]
  have hq1 : -32767 ≤ x * (MAX_SAMPLE_VALUE : ℚ) := by rw [hMV]; nlinarith
  have hq2 : x * (MAX_SAMPLE_VALUE : ℚ) ≤ 32767 := by rw [hMV]; nlinarith
  rw [pyInt_eq]
  split
  · next h =>
    refine ⟨le_trans (by norm_num) (Int.floor_nonneg.mpr h), ?_⟩
    have := Int.floor_le_floor hq2
    rwa [show ((32767 : ℚ)) = ((32767 : ℤ) : ℚ) by norm_num, Int.floor_intCast] at this
  · next h =>
    constructor
    · have := Int.ceil_le_ceil hq1
      rwa [show ((-32767 : ℚ)) = ((-32767 : ℤ) : ℚ) by norm_num, Int.ceil_intCast] at this
    · have hle : x * (MAX_SAMPLE_VALUE : ℚ) ≤ 0 := le_of_lt (lt_of_not_le h)
      have := Int.ceil_le_ceil hle
      rw [show ((0 : ℚ)) = ((0 : ℤ) : ℚ) by norm_num, Int.ceil_intCast] at this
      omega

/-- Unpacking the two little-endian bytes produced for an in-range 16-bit
value recovers that value. -/
theorem decInt16_encInt16 (v : ℤ) (h1 : -32768 ≤ v) (h2 : v ≤ 32767) :
    decInt16 ((v % 65536).toNat % 256) ((v % 65536).toNat / 256) = v := by
  unfold decInt16
  split <;> omega

/-- `decInts` inverts the byte packing of a list of in-range values. -/
theorem decInts_flatMap (l : List ℤ) (h : ∀ v ∈ l, -32768 ≤ v ∧ v ≤ 32767) :
    decInts (l.flatMap encInt16) = l := by
  induction l with
  | nil => rfl
  | cons v rest ih =>
    have hv := h v (List.mem_cons_self v rest)
    have htail : ∀ w ∈ rest, -32768 ≤ w ∧ w ≤ 32767 :=
      fun w hw => h w (List.mem_cons_of_mem v hw)
    show decInts ((v % 65536).toNat % 256 :: (v % 65536).toNat / 256 ::
      rest.flatMap encInt16) = v :: rest
    rw [decInts, decInt16_encInt16 v hv.1 hv.2, ih htail]

/-- Each packed sample contributes exactly two bytes. -/
theorem length_flatMap_encInt16 (l : List ℤ) :
    (l.flatMap encInt16).length = 2 * l.length := by
  induction l with
  | nil => rfl
  | cons v rest ih =>
    show ((v % 65536).toNat % 256 :: (v % 65536).toNat / 256 ::
      rest.flatMap encInt16).length = 2 * (v :: rest).length
    simp [ih]
    omega

/-- On samples whose scaled truncations all fit in 16 bits, the encoder
succeeds and emits the packed bytes. -/
theorem convert_to_bytes_ok (s : List ℚ)
    (h : ∀ x ∈ s, -32768 ≤ pyInt (x * (MAX_SAMPLE_VALUE : ℚ)) ∧
      pyInt (x * (MAX_SAMPLE_VALUE : ℚ)) ≤ 32767) :
    convert_to_bytes s =
      .ok ((s.map fun x => pyInt (x * (MAX_SAMPLE_VALUE : ℚ))).flatMap encInt16) := by
  unfold convert_to_bytes
  rw [if_pos]
  intro v hv
  rw [List.mem_map] at hv
  obtain ⟨x, hx, rfl⟩ := hv
  exact h x hx

/-- On an even-length payload the decoder succeeds and divides each
decoded 16-bit integer by `MAX_SAMPLE_VALUE`. -/
theorem convert_to_samples_ok (bytes : List ℕ) (h : bytes.length % 2 = 0) :
    convert_to_samples bytes =
      .ok ((decInts bytes).map fun v : ℤ => (v : ℚ) / (MAX_SAMPLE_VALUE : ℚ)) := by
  unfold convert_to_samples
  rw [if_pos]
  exact h

/-- The scaled truncation of the out-of-range sample `2` is `65534`. -/
theorem pyInt_scale_two : pyInt ((2 : ℚ) * (MAX_SAMPLE_VALUE : ℚ)) = 65534 := by
  norm_num [pyInt, MAX_SAMPLE_VALUE, SAMPLE_BITS]

/-- Claim C1: for every sample sequence `s` with values in `[-1, 1]`,
decoding the encoding of `s` (`convert_to_samples` applied to
`convert_to_bytes s`) succeeds, yields a sequence of the same length, and
every element differs from the corresponding element of `s` by at most one
quantization step `1 / MAX_SAMPLE_VALUE = 1 / 32767`. -/
theorem claim_C1_roundtrip (s : List ℚ) (h : ∀ x ∈ s, -1 ≤ x ∧ x ≤ 1) :
    (convert_to_bytes s).bind convert_to_samples =
      .ok (s.map fun x =>
        (pyInt (x * (MAX_SAMPLE_VALUE : ℚ)) : ℚ) / (MAX_SAMPLE_VALUE : ℚ)) ∧
    (s.map fun x =>
        (pyInt (x * (MAX_SAMPLE_VALUE : ℚ)) : ℚ) / (MAX_SAMPLE_VALUE : ℚ)).length
      = s.length ∧
    List.Forall₂ (fun x y => |y - x| ≤ 1 / (MAX_SAMPLE_VALUE : ℚ)) s
      (s.map fun x =>
        (pyInt (x * (MAX_SAMPLE_VALUE : ℚ)) : ℚ) / (MAX_SAMPLE_VALUE : ℚ)) := by
  have hMV : (MAX_SAMPLE_VALUE : ℚ) = 32767 := by
    norm_num [MAX_SAMPLE_VALUE, SAMPLE_BITS]
  have hrange : ∀ x ∈ s, -32768 ≤ pyInt (x * (MAX_SAMPLE_VALUE : ℚ)) ∧
      pyInt (x * (MAX_SAMPLE_VALUE : ℚ)) ≤ 32767 := by
    intro x hx
    have := pyInt_scale_range x (h x hx).1 (h x hx).2
    omega
  have henc := convert_to_bytes_ok s hrange
  have heven : ((s.map fun x =>
      pyInt (x * (MAX_SAMPLE_VALUE : ℚ))).flatMap encInt16).length % 2 = 0 := by
    rw [length_flatMap_encInt16]
    omega
  have hdec := convert_to_samples_ok _ heven
  have hints : ∀ v ∈ s.map fun x => pyInt (x * (MAX_SAMPLE_VALUE : ℚ)),
      -32768 ≤ v ∧ v ≤ 32767 := by
    intro v hv
    rw [List.mem_map] at hv
    obtain ⟨x, hx, rfl⟩ := hv
    exact hrange x hx
  rw [decInts_flatMap _ hints, List.map_map] at hdec
  refine ⟨?_, by rw [List.length_map], ?_⟩
  · rw [henc]
    exact hdec
  · rw [List.forall₂_map_right_iff, List.forall₂_same]
    intro x hx
    have hq := abs_pyInt_sub_le (x * (MAX_SAMPLE_VALUE : ℚ))
    rw [hMV] at hq ⊢
    have key : (pyInt (x * (32767 : ℚ)) : ℚ) / (32767 : ℚ) - x
        = ((pyInt (x * (32767 : ℚ)) : ℚ) - x * (32767 : ℚ)) / (32767 : ℚ) := by
      ring
    rw [key, abs_div, abs_of_pos (by norm_num : (0 : ℚ) < 32767)]
    gcongr

/-- Witness for C1 at the concrete one-sample sequence `[0]`. -/
theorem claim_C1_roundtrip_witness :
    (convert_to_bytes [(0 : ℚ)]).bind convert_to_samples =
      .ok ([(0 : ℚ)].map fun x =>
        (pyInt (x * (MAX_SAMPLE_VALUE : ℚ)) : ℚ) / (MAX_SAMPLE_VALUE : ℚ)) ∧
    ([(0 : ℚ)].map fun x =>
        (pyInt (x * (MAX_SAMPLE_VALUE : ℚ)) : ℚ) / (MAX_SAMPLE_VALUE : ℚ)).length
      = [(0 : ℚ)].length ∧
    List.Forall₂ (fun x y => |y - x| ≤ 1 / (MAX_SAMPLE_VALUE : ℚ)) [(0 : ℚ)]
      ([(0 : ℚ)].map fun x =>
        (pyInt (x * (MAX_SAMPLE_VALUE : ℚ)) : ℚ) / (MAX_SAMPLE_VALUE : ℚ)) :=
  claim_C1_roundtrip [0] (by decide)

/-- Claim C2: on samples in `[-1, 1]` the encoder maps each sample `x` to
the integer `pyInt (x * MAX_SAMPLE_VALUE)` (truncation toward zero, with
`MAX_SAMPLE_VALUE = 32767`) written as a little-endian signed 16-bit
integer; truncation is floor on non-negatives and ceiling on negatives;
in particular sample `1` encodes to integer `32767` (bytes `[255, 127]`)
and `-1` to `-32767` (bytes `[1, 128]`), not `-32768`. -/
theorem claim_C2_encode_truncates :
    (∀ s : List ℚ, (∀ x ∈ s, -1 ≤ x ∧ x ≤ 1) →
      convert_to_bytes s =
        .ok ((s.map fun x => pyInt (x * (MAX_SAMPLE_VALUE : ℚ))).flatMap encInt16)) ∧
    (∀ q : ℚ, pyInt q = if 0 ≤ q then ⌊q⌋ else ⌈q⌉) ∧
    MAX_SAMPLE_VALUE = 2 ^ 15 - 1 ∧
    pyInt ((1 : ℚ) * (MAX_SAMPLE_VALUE : ℚ)) = 32767 ∧
    pyInt ((-1 : ℚ) * (MAX_SAMPLE_VALUE : ℚ)) = -32767 ∧
    convert_to_bytes [(1 : ℚ)] = .ok [255, 127] ∧
    convert_to_bytes [(-1 : ℚ)] = .ok [1, 128] := by
  refine ⟨?_, pyInt_eq, by decide, ?_, ?_, ?_, ?_⟩
  · intro s h
    apply convert_to_bytes_ok
    intro x hx
    have := pyInt_scale_range x (h x hx).1 (h x hx).2
    omega
  · norm_num [pyInt, MAX_SAMPLE_VALUE, SAMPLE_BITS]
  · norm_num [pyInt, MAX_SAMPLE_VALUE, SAMPLE_BITS]
  · norm_num [convert_to_bytes, pyInt, encInt16, MAX_SAMPLE_VALUE, SAMPLE_BITS]
    decide
  · norm_num [convert_to_bytes, pyInt, encInt16, MAX_SAMPLE_VALUE, SAMPLE_BITS]
    decide

/-- Witness for C2 at the concrete sequence `[1]`. -/
theorem claim_C2_encode_truncates_witness :
    convert_to_bytes [(1 : ℚ)] =
      .ok (([(1 : ℚ)].map fun x => pyInt (x * (MAX_SAMPLE_VALUE : ℚ))).flatMap encInt16) ∧
    convert_to_bytes [(1 : ℚ)] = .ok [255, 127] :=
  ⟨claim_C2_encode_truncates.1 [1] (by decide), claim_C2_encode_truncates.2.2.2.2.2.1⟩

/-- Counterexample to claim C3: for the sample `2` (outside `[-1, 1]`,
scaled truncation `65534`, which does not fit in a signed 16-bit integer)
the encoder FAILS with `struct.error` instead of silently wrapping the
value modulo `2 ^ 16`. -/
theorem claim_C3_counterexample :
    pyInt ((2 : ℚ) * (MAX_SAMPLE_VALUE : ℚ)) = 65534 ∧
    32767 < (65534 : ℤ) ∧
    convert_to_bytes [(2 : ℚ)] = .error structRangeError := by
  refine ⟨pyInt_scale_two, by decide, ?_⟩
  norm_num [convert_to_bytes, pyInt, encInt16, MAX_SAMPLE_VALUE, SAMPLE_BITS]

/-- Claim C3 as amended: whenever some sample has a scaled truncation
outside the signed 16-bit range, the encoder raises `struct.error`
(Python `struct.pack` range-checks); it neither wraps nor clamps. -/
theorem claim_C3_amended_overflow_errors (s : List ℚ)
    (h : ∃ x ∈ s, pyInt (x * (MAX_SAMPLE_VALUE : ℚ)) < -32768 ∨
      32767 < pyInt (x * (MAX_SAMPLE_VALUE : ℚ))) :
    convert_to_bytes s = .error structRangeError := by
  unfold convert_to_bytes
  rw [if_neg]
  intro hall
  obtain ⟨x, hx, hout⟩ := h
  have := hall (pyInt (x * (MAX_SAMPLE_VALUE : ℚ)))
    (List.mem_map_of_mem _ hx)
  omega

/-- Witness for the amended C3 at the concrete sequence `[2]`. -/
theorem claim_C3_amended_overflow_errors_witness :
    convert_to_bytes [(2 : ℚ)] = .error structRangeError :=
  claim_C3_amended_overflow_errors [2]
    ⟨2, by decide, Or.inr (by rw [pyInt_scale_two]; decide)⟩

/-- `decInts` produces one integer per byte pair. -/
theorem decInts_length : ∀ bytes : List ℕ, (decInts bytes).length = bytes.length / 2
  | [] => by norm_num [decInts]
  | [_] => by norm_num [decInts]
  | b0 :: b1 :: rest => by
    show (decInt16 b0 b1 :: decInts rest).length = ((rest.length + 1) + 1) / 2
    rw [List.length_cons, decInts_length rest]
    omega

/-- The `j`-th decoded integer comes from the byte pair at positions
`2 * j` and `2 * j + 1`. -/
theorem decInts_getElem :
    ∀ (bytes : List ℕ) (j b0 b1 : ℕ), bytes[2 * j]? = some b0 →
      bytes[2 * j + 1]? = some b1 → (decInts bytes)[j]? = some (decInt16 b0 b1)
  | [], j, b0, b1, h0, _ => by simp at h0
  | [b], j, b0, b1, h0, h1 => by
    rcases j with _ | j <;> simp at h0 h1
  | b0' :: b1' :: rest, 0, b0, b1, h0, h1 => by
    simp at h0 h1
    subst h0
    subst h1
    simp [decInts]
  | b0' :: b1' :: rest, j + 1, b0, b1, h0, h1 => by
    have h0' : rest[2 * j]? = some b0 := by
      rw [show 2 * (j + 1) = (2 * j + 1) + 1 by omega] at h0
      simpa using h0
    have h1' : rest[2 * j + 1]? = some b1 := by
      rw [show 2 * (j + 1) + 1 = (2 * j + 1 + 1) + 1 by omega] at h1
      simpa using h1
    have := decInts_getElem rest j b0 b1 h0' h1'
    simpa [decInts] using this

/-- Every integer decoded from genuine bytes (below 256) lies in the
signed 16-bit range. -/
theorem decInts_range :
    ∀ bytes : List ℕ, (∀ b ∈ bytes, b < 256) →
      ∀ v ∈ decInts bytes, -32768 ≤ v ∧ v ≤ 32767
  | [], _, v, hv => by simp [decInts] at hv
  | [b], _, v, hv => by simp [decInts] at hv
  | b0 :: b1 :: rest, hb, v, hv => by
    rw [show decInts (b0 :: b1 :: rest) = decInt16 b0 b1 :: decInts rest from rfl] at hv
    rcases List.mem_cons.mp hv with hv | hv
    · have h0 : b0 < 256 := hb b0 (by simp)
      have h1 : b1 < 256 := hb b1 (by simp)
      subst hv
      unfold decInt16
      split <;> omega
    · exact decInts_range rest (fun b hbb => hb b (by simp [hbb])) v hv

/-- Claim C8: decoding fails with the length error exactly when the
payload length is not a multiple of the sample width (2 bytes); on
even-length payloads it succeeds and returns one rational sample
`v / MAX_SAMPLE_VALUE` per little-endian signed 16-bit integer `v`, read
from the byte pair at positions `2 * j` and `2 * j + 1`, each decoded
integer lying in `[-32768, 32767]`. -/
theorem claim_C8_decode_length (bytes : List ℕ) (hb : ∀ b ∈ bytes, b < 256) :
    (bytes.length % 2 ≠ 0 → convert_to_samples bytes = .error structSizeError) ∧
    (bytes.length % 2 = 0 →
      convert_to_samples bytes =
        .ok ((decInts bytes).map fun v : ℤ => (v : ℚ) / (MAX_SAMPLE_VALUE : ℚ)) ∧
      (decInts bytes).length = bytes.length / 2 ∧
      (∀ j b0 b1, bytes[2 * j]? = some b0 → bytes[2 * j + 1]? = some b1 →
        (decInts bytes)[j]? = some (decInt16 b0 b1)) ∧
      ∀ v ∈ decInts bytes, -32768 ≤ v ∧ v ≤ 32767) := by
  constructor
  · intro hodd
    unfold convert_to_samples
    rw [if_neg]
    exact hodd
  · intro heven
    exact ⟨convert_to_samples_ok bytes heven, decInts_length bytes,
      fun j b0 b1 h0 h1 => decInts_getElem bytes j b0 b1 h0 h1,
      decInts_range bytes hb⟩

/-- Witness for C8 at the concrete payload `[255, 127, 1, 128]`
(the encodings of `32767` and `-32767`). -/
theorem claim_C8_decode_length_witness :
    convert_to_samples [255, 127, 1, 128] =
      .ok ((decInts [255, 127, 1, 128]).map
        fun v : ℤ => (v : ℚ) / (MAX_SAMPLE_VALUE : ℚ)) ∧
    (decInts [255, 127, 1, 128]).length = 2 ∧
    convert_to_samples [255] = .error structSizeError :=
  ⟨((claim_C8_decode_length [255, 127, 1, 128] (by decide)).2 (by decide)).1,
    ((claim_C8_decode_length [255, 127, 1, 128] (by decide)).2 (by decide)).2.1,
    (claim_C8_decode_length [255] (by decide)).1 (by decide)⟩

/-- Stride-`k` selection with a skip counter: `sliceAux k c l` keeps the
element once the counter reaches zero and then resets it to `k - 1`.
`sliceAux k 0 l` is Python's extended slice `l[::k]`. -/
def sliceAux {α : Type} (k : ℕ) : ℕ → List α → List α
  | _, [] => []
  | 0, x :: xs => x :: sliceAux k (k - 1) xs
  | c + 1, _ :: xs => sliceAux k c xs

/-- `separate_channels(samples, num_channels)` from the source:
`[samples[i::num_channels] for i in range(num_channels)]`, where
`samples[i::num_channels]` takes the elements at positions
`i, i + num_channels, i + 2 * num_channels, …`. -/
def separate_channels {α : Type} (samples : List α) (num_channels : ℕ) :
    List (List α) :=
  (List.range num_channels).map fun i => sliceAux num_channels 0 (samples.drop i)

/-- The length of the shortest channel, which is where `zip(*channels)`
stops; `zip()` of no iterables is empty. -/
def minLength {α : Type} : List (List α) → ℕ
  | [] => 0
  | [c] => c.length
  | c :: c2 :: cs => min c.length (minLength (c2 :: cs))

/-- `merge_channels(channels)` from the source:
`[sample for samples in zip(*channels) for sample in samples]` — for each
index `i` below the shortest channel length, emit the `i`-th element of
every channel in order. -/
def merge_channels {α : Type} (channels : List (List α)) : List α :=
  (List.range (minLength channels)).flatMap fun i =>
    channels.filterMap fun ch => ch[i]?

example : merge_channels [[11, 12, 13], [21, 22, 23]] = [11, 21, 12, 22, 13, 23] := by
  decide
example : separate_channels [11, 21, 12, 22, 13, 23] 2 = [[11, 12, 13], [21, 22, 23]] := by
  decide
example : separate_channels [11, 21, 12, 22, 13] 2 = [[11, 12, 13], [21, 22]] := by
  decide

/-- Element `j` of a stride-`k` slice started with skip counter `c` is the
element at position `c + j * k` of the underlying list. -/
theorem sliceAux_getElem {α : Type} (k : ℕ) (hk : 1 ≤ k) :
    ∀ (l : List α) (c j : ℕ), (sliceAux k c l)[j]? = l[c + j * k]? := by
  intro l
  induction l with
  | nil => intro c j; simp [sliceAux]
  | cons x xs ih =>
    intro c j
    match c with
    | 0 =>
      match j with
      | 0 => simp [sliceAux]
      | j + 1 =>
        show (x :: sliceAux k (k - 1) xs)[j + 1]? = (x :: xs)[0 + (j + 1) * k]?
        rw [List.getElem?_cons_succ, ih (k - 1) j,
          show 0 + (j + 1) * k = ((k - 1) + j * k) + 1 by rw [Nat.succ_mul]; omega,
          List.getElem?_cons_succ]
    | c + 1 =>
      show (sliceAux k c xs)[j]? = (x :: xs)[(c + 1) + j * k]?
      rw [ih c j, show (c + 1) + j * k = (c + j * k) + 1 by omega,
        List.getElem?_cons_succ]

/-- The length of a stride-`k` slice with skip counter `c`:
the ceiling of `(length - c) / k`. -/
theorem sliceAux_length {α : Type} (k : ℕ) (hk : 1 ≤ k) :
    ∀ (l : List α) (c : ℕ), (sliceAux k c l).length = (l.length - c + k - 1) / k := by
  intro l
  induction l with
  | nil =>
    intro c
    have h0 : sliceAux k c ([] : List α) = [] := by cases c <;> rfl
    rw [h0]
    show 0 = ([].length - c + k - 1) / k
    rw [List.length_nil, Nat.div_eq_of_lt (by omega)]
  | cons x xs ih =>
    intro c
    match c with
    | 0 =>
      show (x :: sliceAux k (k - 1) xs).length = (xs.length + 1 - 0 + k - 1) / k
      rw [List.length_cons, ih (k - 1),
        show xs.length + 1 - 0 + k - 1 = xs.length + k by omega,
        Nat.add_div_right _ (by omega : 0 < k)]
      by_cases hlen : k - 1 ≤ xs.length
      · rw [show xs.length - (k - 1) + k - 1 = xs.length by omega]
      · rw [show xs.length - (k - 1) + k - 1 = k - 1 by omega,
          Nat.div_eq_of_lt (by omega), Nat.div_eq_of_lt (by omega)]
    | c + 1 =>
      show (sliceAux k c xs).length = (xs.length + 1 - (c + 1) + k - 1) / k
      rw [ih c, show xs.length + 1 - (c + 1) + k - 1 = xs.length - c + k - 1 by omega]

/-- The ceiling `(n - c + k - 1) / k` as quotient plus a one-element
bonus for the first `n % k` channels. -/
theorem channel_length_formula (n c k : ℕ) (hk : 1 ≤ k) (hc : c < k) :
    (n - c + k - 1) / k = n / k + if c < n % k then 1 else 0 := by
  have hmod : n % k < k := Nat.mod_lt n (by omega)
  have hn : k * (n / k) + n % k = n := Nat.div_add_mod n k
  set q := n / k with hq
  set r := n % k with hr
  by_cases hcr : c < r
  · rw [if_pos hcr]
    have hnum : n - c + k - 1 = (r - c + k - 1) + q * k := by
      have h1 : n = k * q + r := hn.symm
      have h2 : k * q = q * k := Nat.mul_comm k q
      omega
    rw [hnum, Nat.add_mul_div_right _ _ (by omega : 0 < k),
      Nat.div_eq_of_lt_le (by omega : 1 * k ≤ r - c + k - 1) (by omega : r - c + k - 1 < (1 + 1) * k)]
    omega
  · rw [if_neg hcr]
    match hq2 : q with
    | 0 =>
      have hnr : n = r := by omega
      have : n - c = 0 := by omega
      rw [this, Nat.div_eq_of_lt (by omega)]
    | q2 + 1 =>
      have hnum : n - c + k - 1 = ((k - (c - r)) + k - 1) + q2 * k := by
        have h1 : n = k * (q2 + 1) + r := by omega
        rw [Nat.mul_succ] at h1
        have h2 : k * q2 = q2 * k := Nat.mul_comm k q2
        omega
      rw [hnum, Nat.add_mul_div_right _ _ (by omega : 0 < k),
        Nat.div_eq_of_lt_le (by omega : 1 * k ≤ (k - (c - r)) + k - 1)
          (by omega : (k - (c - r)) + k - 1 < (1 + 1) * k)]
      omega

/-- When all channels have length `n` and there is at least one channel,
the shortest channel length is `n`. -/
theorem minLength_eq {α : Type} (n : ℕ) :
    ∀ (channels : List (List α)), channels ≠ [] →
      (∀ ch ∈ channels, ch.length = n) → minLength channels = n
  | [], h, _ => absurd rfl h
  | [c], _, hall => by
    show c.length = n
    exact hall c (by simp)
  | c :: c2 :: cs, _, hall => by
    show min c.length (minLength (c2 :: cs)) = n
    rw [hall c (by simp), minLength_eq n (c2 :: cs) (by simp)
      (fun ch hch => hall ch (List.mem_cons_of_mem c hch))]
    omega

/-- One interleaved frame: when every channel is longer than `i`, taking
the `i`-th sample of each channel keeps one element per channel. -/
theorem frame_length {α : Type} (i : ℕ) :
    ∀ channels : List (List α), (∀ ch ∈ channels, i < ch.length) →
      (channels.filterMap fun ch => ch[i]?).length = channels.length
  | [], _ => rfl
  | ch :: rest, hall => by
    have hch : i < ch.length := hall ch (by simp)
    obtain ⟨y, hy⟩ : ∃ y, ch[i]? = some y :=
      ⟨ch.get ⟨i, hch⟩, List.getElem?_eq_getElem hch⟩
    simp only [List.filterMap_cons, hy, List.length_cons]
    rw [frame_length i rest (fun c hc => hall c (List.mem_cons_of_mem ch hc))]

/-- Element `c` of an interleaved frame is the `i`-th sample of
channel `c`. -/
theorem frame_getElem {α : Type} (i : ℕ) :
    ∀ (channels : List (List α)), (∀ ch ∈ channels, i < ch.length) →
      ∀ (c : ℕ) (hc : c < channels.length),
        (channels.filterMap fun ch => ch[i]?)[c]? = (channels.get ⟨c, hc⟩)[i]?
  | [], _, c, hc => absurd hc (by simp)
  | ch :: rest, hall, c, hc => by
    have hch : i < ch.length := hall ch (by simp)
    obtain ⟨y, hy⟩ : ∃ y, ch[i]? = some y :=
      ⟨ch.get ⟨i, hch⟩, List.getElem?_eq_getElem hch⟩
    simp only [List.filterMap_cons, hy]
    match c with
    | 0 => simp [hy.symm]
    | c + 1 =>
      rw [List.getElem?_cons_succ]
      exact frame_getElem i rest (fun ch2 hc2 => hall ch2 (List.mem_cons_of_mem ch hc2))
        c (by simpa using hc)

/-- A concatenation of `n` frames of `k` samples has `n * k` samples. -/
theorem flatMap_range_length {α : Type} (k : ℕ) (f : ℕ → List α) :
    ∀ n : ℕ, (∀ i, i < n → (f i).length = k) →
      ((List.range n).flatMap f).length = n * k
  | 0, _ => by simp
  | n + 1, hf => by
    rw [List.range_succ, List.flatMap_append,
      List.length_append, flatMap_range_length k f n (fun i hi => hf i (by omega)),
      List.flatMap_cons, List.flatMap_nil, List.append_nil, hf n (by omega),
      Nat.succ_mul]

/-- In a concatenation of `n` frames of `k` samples each, the element at
position `j * k + c` (with `c < k`) is element `c` of frame `j`. -/
theorem flatMap_range_getElem {α : Type} (k : ℕ) :
    ∀ (n : ℕ) (f : ℕ → List α), (∀ i, i < n → (f i).length = k) →
      ∀ (j c : ℕ), j < n → c < k →
        ((List.range n).flatMap f)[j * k + c]? = (f j)[c]? := by
  intro n
  induction n with
  | zero => intro f _ j c hj _; omega
  | succ n ih =>
    intro f hf j c hj hc
    rw [List.range_succ_eq_map, List.flatMap_cons, List.flatMap_map]
    match j with
    | 0 =>
      rw [Nat.zero_mul, Nat.zero_add, List.getElem?_append,
        if_pos (by rw [hf 0 (by omega)]; exact hc)]
    | j + 1 =>
      rw [List.getElem?_append_right
        (by rw [hf 0 (by omega), Nat.succ_mul]; omega)]
      have harith : (j + 1) * k + c - (f 0).length = j * k + c := by
        rw [hf 0 (by omega), Nat.succ_mul]
        omega
      rw [harith]
      exact ih (fun a => f (a + 1)) (fun i hi => hf (i + 1) (by omega)) j c (by omega) hc

/-- Claim C4: for every channel set in which all channels have equal
length, separating the merged interleaved buffer with `num_channels`
equal to the number of channels recovers the original channels. -/
theorem claim_C4_merge_separate {α : Type} (channels : List (List α)) (n : ℕ)
    (h : ∀ ch ∈ channels, ch.length = n) :
    separate_channels (merge_channels channels) channels.length = channels := by
  rcases channels with _ | ⟨c0, rest⟩
  · rfl
  · have hmin : minLength (c0 :: rest) = n := minLength_eq n _ (by simp) h
    set k := (c0 :: rest).length with hkdef
    have hk1 : 1 ≤ k := by rw [hkdef]; simp
    set f : ℕ → List α := fun i => (c0 :: rest).filterMap fun ch => ch[i]? with hf
    have hin : ∀ i, i < n → ∀ ch ∈ c0 :: rest, i < ch.length :=
      fun i hi ch hch => by rw [h ch hch]; exact hi
    have hflen : ∀ i, i < n → (f i).length = k :=
      fun i hi => frame_length i _ (hin i hi)
    have hmerged : merge_channels (c0 :: rest) = (List.range n).flatMap f := by
      rw [merge_channels, hmin]
    have hmlen : (merge_channels (c0 :: rest)).length = n * k := by
      rw [hmerged]; exact flatMap_range_length k f n hflen
    apply List.ext_getElem?
    intro c
    by_cases hc : c < k
    · rw [separate_channels, List.getElem?_map, List.getElem?_range hc,
        Option.map_some']
      have hcl : c < (c0 :: rest).length := hc
      rw [List.getElem?_eq_getElem hcl]
      refine congrArg some ?_
      have hchlen : (c0 :: rest).get ⟨c, hcl⟩ ∈ c0 :: rest :=
        List.get_mem (c0 :: rest) c hcl
      have hclen : ((c0 :: rest).get ⟨c, hcl⟩).length = n := h _ hchlen
      apply List.ext_getElem?
      intro j
      rw [sliceAux_getElem k hk1, Nat.zero_add, List.getElem?_drop]
      by_cases hj : j < n
      · rw [show c + j * k = j * k + c by omega, hmerged,
          flatMap_range_getElem k n f hflen j c hj hc, hf]
        show ((c0 :: rest).filterMap fun ch => ch[j]?)[c]? = _
        rw [frame_getElem j (c0 :: rest) (hin j hj) c hcl]
        simp [List.get_eq_getElem]
      · rw [List.getElem?_eq_none, List.getElem?_eq_none]
        · have hgl : (c0 :: rest)[c].length = n := by simpa using hclen
          omega
        · rw [hmlen]
          have : n * k ≤ j * k := Nat.mul_le_mul_right k (by omega)
          omega
    · rw [separate_channels, List.getElem?_eq_none, List.getElem?_eq_none]
      · show k ≤ c
        omega
      · rw [List.length_map, List.length_range]
        omega

/-- Witness for C4 at the concrete two-channel set `[[1, 2], [3, 4]]`. -/
theorem claim_C4_merge_separate_witness :
    separate_channels (merge_channels [[1, 2], [3, 4]])
      ([[1, 2], [3, 4]] : List (List ℤ)).length = [[1, 2], [3, 4]] :=
  claim_C4_merge_separate [[1, 2], [3, 4]] 2 (by decide)

/-- Sum over `range k` of a constant plus a one-bonus for the first `m`
indices. -/
theorem sum_range_add_ite (a : ℕ) :
    ∀ (k m : ℕ), m ≤ k →
      ((List.range k).map fun c => a + if c < m then 1 else 0).sum = k * a + m
  | 0, m, hm => by
    have : m = 0 := by omega
    simp [this]
  | k + 1, m, hm => by
    rw [List.range_succ, List.map_append, List.sum_append]
    by_cases hmk : m ≤ k
    · rw [sum_range_add_ite a k m hmk]
      have hkm : ¬k < m := by omega
      simp only [List.map_cons, List.map_nil, List.sum_cons, List.sum_nil,
        if_neg hkm]
      have h1 : (k + 1) * a = k * a + a := Nat.succ_mul k a
      omega
    · have hm1 : m = k + 1 := by omega
      have hconst : (List.range k).map (fun c => a + if c < m then 1 else 0)
          = (List.range k).map (fun _ => a + 1) := by
        apply List.map_congr_left
        intro c hc
        rw [List.mem_range] at hc
        rw [if_pos (by omega)]
      rw [hconst, List.map_const', List.length_range, List.sum_replicate,
        smul_eq_mul]
      simp only [List.map_cons, List.map_nil, List.sum_cons, List.sum_nil,
        if_pos (by omega : k < m)]
      have h1 : k * (a + 1) = k * a + k := Nat.mul_succ k a
      have h2 : (k + 1) * a = k * a + a := Nat.succ_mul k a
      omega

/-- The lengths of the separated channels sum to the buffer length:
`separate_channels` drops no element. -/
theorem separate_channels_length_sum {α : Type} (buffer : List α) (k : ℕ)
    (hk : 1 ≤ k) :
    ((separate_channels buffer k).map List.length).sum = buffer.length := by
  rw [separate_channels, List.map_map]
  have hcongr : (List.range k).map
        (List.length ∘ fun i => sliceAux k 0 (buffer.drop i))
      = (List.range k).map
        (fun c => buffer.length / k + if c < buffer.length % k then 1 else 0) := by
    apply List.map_congr_left
    intro c hc
    rw [List.mem_range] at hc
    show (sliceAux k 0 (buffer.drop c)).length = _
    rw [sliceAux_length k hk, List.length_drop,
      show buffer.length - c - 0 = buffer.length - c by omega,
      channel_length_formula buffer.length c k hk hc]
  rw [hcongr, sum_range_add_ite _ k (buffer.length % k)
    (Nat.le_of_lt (Nat.mod_lt buffer.length (by omega)))]
  exact Nat.div_add_mod buffer.length k

/-- A defined entry of `separate_channels` is a stride-`k` slice starting
at an in-range channel index. -/
theorem separate_channels_eq_some {α : Type} (buffer : List α) (k c : ℕ)
    (ch : List α) (hch : (separate_channels buffer k)[c]? = some ch) :
    c < k ∧ ch = sliceAux k 0 (buffer.drop c) := by
  have hck : c < k := by
    by_contra hcge
    rw [List.getElem?_eq_none (by simp [separate_channels]; omega)] at hch
    exact Option.noConfusion hch
  rw [separate_channels, List.getElem?_map, List.getElem?_range hck,
    Option.map_some'] at hch
  exact ⟨hck, (Option.some.inj hch).symm⟩

/-- The length of channel `c`: the quotient plus one for the first
`len % k` channels. -/
theorem separate_channels_channel_length {α : Type} (buffer : List α)
    (k c : ℕ) (hk : 1 ≤ k) (ch : List α)
    (hch : (separate_channels buffer k)[c]? = some ch) :
    ch.length = buffer.length / k + if c < buffer.length % k then 1 else 0 := by
  obtain ⟨hck, rfl⟩ := separate_channels_eq_some buffer k c ch hch
  rw [sliceAux_length k hk, List.length_drop,
    show buffer.length - c - 0 = buffer.length - c by omega,
    channel_length_formula buffer.length c k hk hck]

/-- Claim C10: for every buffer and positive `num_channels`,
`separate_channels` returns exactly `num_channels` channels; channel `c`
holds the buffer elements at positions `c, c + k, c + 2k, …`; the channel
lengths sum to the buffer length (no element is dropped), and channel `c`
has length `len / k` plus one exactly when `c < len % k` — so when the
length is not a multiple of `k`, the first `len % k` channels are one
element longer than the rest. -/
theorem claim_C10_separate_no_drop {α : Type} (buffer : List α) (k : ℕ)
    (hk : 1 ≤ k) :
    (separate_channels buffer k).length = k ∧
    (∀ c ch, (separate_channels buffer k)[c]? = some ch →
      (∀ j, ch[j]? = buffer[c + j * k]?) ∧
      ch.length = buffer.length / k +
        if c < buffer.length % k then 1 else 0) ∧
    ((separate_channels buffer k).map List.length).sum = buffer.length := by
  refine ⟨by simp [separate_channels], ?_, separate_channels_length_sum buffer k hk⟩
  intro c ch hch
  refine ⟨?_, separate_channels_channel_length buffer k c hk ch hch⟩
  obtain ⟨hck, rfl⟩ := separate_channels_eq_some buffer k c ch hch
  intro j
  rw [sliceAux_getElem k hk, Nat.zero_add, List.getElem?_drop]

/-- Witness for C10 at the concrete buffer `[1, …, 7]` with 3 channels. -/
theorem claim_C10_separate_no_drop_witness :
    (separate_channels ([1, 2, 3, 4, 5, 6, 7] : List ℤ) 3).length = 3 ∧
    (∀ c ch, (separate_channels ([1, 2, 3, 4, 5, 6, 7] : List ℤ) 3)[c]? = some ch →
      (∀ j, ch[j]? = ([1, 2, 3, 4, 5, 6, 7] : List ℤ)[c + j * 3]?) ∧
      ch.length = ([1, 2, 3, 4, 5, 6, 7] : List ℤ).length / 3 +
        if c < ([1, 2, 3, 4, 5, 6, 7] : List ℤ).length % 3 then 1 else 0) ∧
    ((separate_channels ([1, 2, 3, 4, 5, 6, 7] : List ℤ) 3).map List.length).sum
      = ([1, 2, 3, 4, 5, 6, 7] : List ℤ).length :=
  claim_C10_separate_no_drop [1, 2, 3, 4, 5, 6, 7] 3 (by decide)

/-- Counterexample to claim C6: on the buffer `[11, 21, 12, 22, 13]` of
length 5 (not a multiple of 2 channels) `separate_channels` drops
nothing — all five elements appear in the two channels, whereas the claim
says the trailing `5 % 2 = 1` samples are silently dropped. -/
theorem claim_C6_counterexample :
    separate_channels ([11, 21, 12, 22, 13] : List ℤ) 2 = [[11, 12, 13], [21, 22]] ∧
    ((separate_channels ([11, 21, 12, 22, 13] : List ℤ) 2).map List.length).sum = 5 ∧
    (5 : ℕ) % 2 ≠ 0 ∧
    (13 : ℤ) ∈ [[11, 12, 13], [21, 22]].flatten :=
  ⟨by decide, by decide, by decide, by decide⟩

/-- Claim C6 as amended: on a buffer whose length is not a multiple of
`num_channels`, `separate_channels` does not fail and drops nothing — the
channel lengths still sum to the buffer length; the channels are merely
uneven: channel `c` has `len / k + 1` elements when `c < len % k` and
`len / k` otherwise, so the last channel is shorter than the first. -/
theorem claim_C6_amended_uneven_channels {α : Type} (buffer : List α) (k : ℕ)
    (hk : 1 ≤ k) (hrem : buffer.length % k ≠ 0) :
    ((separate_channels buffer k).map List.length).sum = buffer.length ∧
    (∀ c ch, (separate_channels buffer k)[c]? = some ch →
      ch.length = buffer.length / k +
        if c < buffer.length % k then 1 else 0) ∧
    (∀ ch0 chl, (separate_channels buffer k)[0]? = some ch0 →
      (separate_channels buffer k)[k - 1]? = some chl →
        chl.length < ch0.length) := by
  have hmod : buffer.length % k < k := Nat.mod_lt buffer.length (by omega)
  refine ⟨separate_channels_length_sum buffer k hk,
    fun c ch hch => separate_channels_channel_length buffer k c hk ch hch, ?_⟩
  intro ch0 chl h0 hl
  rw [separate_channels_channel_length buffer k 0 hk ch0 h0,
    separate_channels_channel_length buffer k (k - 1) hk chl hl,
    if_pos (by omega : 0 < buffer.length % k),
    if_neg (by omega : ¬(k - 1 < buffer.length % k))]
  omega

/-- Witness for the amended C6 at the concrete buffer `[1, 2, 3, 4, 5]`
with 2 channels. -/
theorem claim_C6_amended_uneven_channels_witness :
    ((separate_channels ([1, 2, 3, 4, 5] : List ℤ) 2).map List.length).sum
      = ([1, 2, 3, 4, 5] : List ℤ).length ∧
    (∀ c ch, (separate_channels ([1, 2, 3, 4, 5] : List ℤ) 2)[c]? = some ch →
      ch.length = ([1, 2, 3, 4, 5] : List ℤ).length / 2 +
        if c < ([1, 2, 3, 4, 5] : List ℤ).length % 2 then 1 else 0) ∧
    (∀ ch0 chl, (separate_channels ([1, 2, 3, 4, 5] : List ℤ) 2)[0]? = some ch0 →
      (separate_channels ([1, 2, 3, 4, 5] : List ℤ) 2)[2 - 1]? = some chl →
        chl.length < ch0.length) :=
  claim_C6_amended_uneven_channels [1, 2, 3, 4, 5] 2 (by decide) (by decide)

/-- Python's `int()` on a real number: truncation toward zero. -/
noncomputable def pyIntR (x : ℝ) : ℤ := if 0 ≤ x then ⌊x⌋ else ⌈x⌉

/-- `sine_gen(freq, amplitude, duration_seconds)` from the source: for
`i` in `range(int(SAMPLING_FREQ * duration_seconds))`, yield
`amplitude * sin(freq * (i / SAMPLING_FREQ * 2 * pi))` (Python `range`
of a negative integer is empty). -/
noncomputable def sine_gen (freq amplitude duration_seconds : ℝ) : List ℝ :=
  (List.range (pyIntR ((SAMPLING_FREQ : ℝ) * duration_seconds)).toNat).map
    fun i : ℕ => amplitude *
      Real.sin (freq * ((i : ℝ) / (SAMPLING_FREQ : ℝ) * (2 * Real.pi)))

/-- Claim C7: for every frequency, amplitude and non-negative duration
`d`, `sine_gen` produces exactly `⌊44100 * d⌋` samples, and sample `i`
equals `amplitude * sin(2 * pi * freq * i / 44100)`. -/
theorem claim_C7_sine_gen (freq amplitude d : ℝ) (hd : 0 ≤ d) :
    ((sine_gen freq amplitude d).length : ℤ) = ⌊(SAMPLING_FREQ : ℝ) * d⌋ ∧
    ∀ (i : ℕ) (hi : i < (sine_gen freq amplitude d).length),
      (sine_gen freq amplitude d).get ⟨i, hi⟩ =
        amplitude * Real.sin (2 * Real.pi * freq * (i : ℝ) / (SAMPLING_FREQ : ℝ)) := by
  have hnn : 0 ≤ (SAMPLING_FREQ : ℝ) * d := by positivity
  have hfl : pyIntR ((SAMPLING_FREQ : ℝ) * d) = ⌊(SAMPLING_FREQ : ℝ) * d⌋ := by
    rw [pyIntR, if_pos hnn]
  constructor
  · rw [sine_gen, List.length_map, List.length_range, hfl,
      Int.toNat_of_nonneg (Int.floor_nonneg.mpr hnn)]
  · intro i hi
    simp only [sine_gen, List.get_eq_getElem, List.getElem_map, List.getElem_range]
    congr 1
    rw [show 2 * Real.pi * freq * (i : ℝ) / (SAMPLING_FREQ : ℝ)
      = freq * ((i : ℝ) / (SAMPLING_FREQ : ℝ) * (2 * Real.pi)) by ring]

/-- Witness for C7 at frequency 1, amplitude 1 and duration 0. -/
theorem claim_C7_sine_gen_witness :
    ((sine_gen 1 1 (0 : ℝ)).length : ℤ) = ⌊(SAMPLING_FREQ : ℝ) * (0 : ℝ)⌋ ∧
    ∀ (i : ℕ) (hi : i < (sine_gen 1 1 (0 : ℝ)).length),
      (sine_gen 1 1 (0 : ℝ)).get ⟨i, hi⟩ =
        1 * Real.sin (2 * Real.pi * 1 * (i : ℝ) / (SAMPLING_FREQ : ℝ)) :=
  claim_C7_sine_gen 1 1 0 le_rfl

/-- The `WaveHeader` namedtuple from the source. -/
structure WaveHeader where
  riff : String
  file_size : ℕ
  wave : String
  fmt : String
  fmt_size : ℕ
  wav_type : ℕ
  num_channels : ℕ
  sampling_freq : ℕ
  bytes_per_second : ℕ
  block_align : ℕ
  sample_bits : ℕ
  data : String
  data_size : ℕ
deriving DecidableEq

/-- `struct.calcsize(WAVE_FILE_HEADERS_STRUCT)` with layout
`"<4sI4s" + "4sIHHIIHH" + "4sI"`: 44 bytes. -/
def WAVE_FILE_HEADERS_SIZE : ℕ := (4 + 4 + 4) + (4 + 4 + 2 + 2 + 4 + 4 + 2 + 2) + (4 + 4)

/-- `struct.calcsize(FORMAT_HEADER_STRUCT)` with layout `"4sIHHIIHH"`:
24 bytes (native alignment inserts no padding at these offsets). -/
def FORMAT_HEADER_SIZE : ℕ := 4 + 4 + 2 + 2 + 4 + 4 + 2 + 2

/-- `create_headers(num_samples)` from the source, field for field:
`data_size = num_samples * SAMPLE_WIDTH`,
`riff_file_size = calcsize - 8 + data_size`, fixed stereo/44100/16-bit
fields, and notably `block_align = SAMPLE_WIDTH`. -/
def create_headers (num_samples : ℕ) : WaveHeader :=
  { riff := "RIFF"
    file_size := WAVE_FILE_HEADERS_SIZE - 8 + num_samples * SAMPLE_WIDTH
    wave := "WAVE"
    fmt := "fmt "
    fmt_size := FORMAT_HEADER_SIZE - 8
    wav_type := 1
    num_channels := 2
    sampling_freq := SAMPLING_FREQ
    bytes_per_second := SAMPLING_FREQ * SAMPLE_WIDTH
    block_align := SAMPLE_WIDTH
    sample_bits := SAMPLE_BITS
    data := "data"
    data_size := num_samples * SAMPLE_WIDTH }

/-- `encode_wave_data(samples)` from the source: headers built from the
sample count alone, alongside the packed sample bytes.  (The source
additionally serializes the header record with `struct.pack`; the claims
concern the header fields, kept here as the record.) -/
def encode_wave_data (samples : List ℚ) : WaveHeader × Except String (List ℕ) :=
  (create_headers samples.length, convert_to_bytes samples)

/-- Claim C5 fails on the code: for every `num_samples` (evaluated at the
failing input `0`), the block-align field is `SAMPLE_WIDTH = 2`, not
`num_channels * bytes_per_sample = 2 * 2 = 4` as the WAV format requires;
the byte-rate field is `44100 * 2 = 88200`, which matches
`sample_rate * block_align` only for the buggy stored block-align. -/
theorem claim_C5_block_align_bug :
    (create_headers 0).block_align = 2 ∧
    (create_headers 0).num_channels * ((create_headers 0).sample_bits / 8) = 4 ∧
    (create_headers 0).block_align ≠
      (create_headers 0).num_channels * ((create_headers 0).sample_bits / 8) ∧
    (create_headers 0).bytes_per_second = 88200 ∧
    (create_headers 0).bytes_per_second =
      (create_headers 0).sampling_freq * (create_headers 0).block_align := by
  refine ⟨by decide, by decide, by decide, by decide, by decide⟩

/-- Claim C9: for every `num_samples`, the header declares 2 channels,
16 bits per sample and a 44100 Hz sample rate — `create_headers` takes no
channel-count, rate or bit-depth parameter — and `encode_wave_data`
builds the header from the sample count alone, so even mono data gets
this stereo header. -/
theorem claim_C9_fixed_stereo_header :
    (∀ num_samples : ℕ,
      (create_headers num_samples).num_channels = 2 ∧
      (create_headers num_samples).sample_bits = 16 ∧
      (create_headers num_samples).sampling_freq = 44100) ∧
    ∀ samples : List ℚ,
      (encode_wave_data samples).1 = create_headers samples.length :=
  ⟨fun _ => ⟨rfl, rfl, rfl⟩, fun _ => rfl⟩

end Wav
